import Mathlib

/-!
Verification of the context-aware spell checker core
(`src/spell_checker.py`).

The pipeline is embedded shallowly:

* spaCy tokenization, the enchant dictionary, the BERT fill-mask
  pipeline and the textstat readability library are external
  collaborators; they are passed in as function-valued parameters
  (the `Env` and `ReadabilitySvc` records below).
* Python strings are modelled as Lean `String` (a list of characters,
  indexed by character offset exactly as Python indexes by code point).
* Python floats for the confidence weights are modelled as rationals.
* Python exceptions are modelled with `Except String`; functions that
  cannot raise keep a plain result type.
* The SQLite-backed `MockDatabase` is modelled as a list of rows
  together with the documented semantics of
  `CREATE TABLE IF NOT EXISTS`, `AUTOINCREMENT` and `INSERT OR IGNORE`.
-/

/-- A spaCy token: surface text, character offset into the original
text (`token.idx`), and the `is_alpha` flag. Tokenization itself is
external (spaCy), so documents are arbitrary token lists. -/
structure Token where
  text : String
  idx : Nat
  is_alpha : Bool
deriving DecidableEq, Repr

/-- A homophone group row as returned by `MockDatabase.get_homophones`:
the dictionary with keys `group`, `words`, `rules`, `examples`. -/
structure HomGroup where
  group : String
  words : List String
  rules : String
  examples : String
deriving DecidableEq, Repr

/-- A detected error dictionary as built by `detect_errors` and
`_check_homophones`: keys `word`, `position`, `type`, `suggestions`,
and (for homophone errors only) `confidence`. -/
structure DetectedError where
  word : String
  position : Nat
  type : String
  suggestions : List String
  confidence : Option ℚ
deriving DecidableEq, Repr

/-- A correction record appended to `corrections_made`:
keys `original`, `corrected`, `type`. -/
structure CorrectionRecord where
  original : String
  corrected : String
  type : String
deriving DecidableEq, Repr

/-- The `SpellCheckResult` dataclass. -/
structure SpellCheckResult where
  original_text : String
  corrected_text : String
  suggestions : List DetectedError
  confidence_score : ℚ
  error_type : String
  corrections_made : List CorrectionRecord
deriving DecidableEq, Repr

/-- Python `str.lower()`. The words handled by this program are
ASCII, where per-character lowering agrees with Python. -/
def pyLower (s : String) : String :=
  String.mk (s.toList.map Char.toLower)

/-- Python substring containment: `sub in s` on strings. -/
def strContains (s sub : String) : Bool :=
  decide (sub.toList <:+: s.toList)

/-- The apostrophe character, kept as a named definition. -/
def apostrophe : String :=
  String.mk [Char.ofNat 39]

/-- The surface form of the contraction of "they are"
(the string literal used at lines 253 and 255 of the source). -/
def theyreWord : String :=
  "they" ++ apostrophe ++ "re"

/-- `ContextAwareSpellChecker._analyze_homophone_context`
(src/spell_checker.py lines 242-257): hand-coded keyword rules.
Each keyword test is a Python substring test on the lowered context. -/
def analyze_homophone_context (word context : String) (_g : HomGroup) :
    Option String :=
  let cl := pyLower context
  if pyLower word = "there" then
    if ["is", "are", "was", "were"].any (fun p => strContains cl p) then
      some "there"
    else
      none
  else if pyLower word = "their" then
    if ["book", "car", "house", "name"].any (fun p => strContains cl p) then
      some "their"
    else
      none
  else if pyLower word = theyreWord then
    if ["coming", "going", "here", "there"].any (fun p => strContains cl p) then
      some theyreWord
    else
      none
  else
    none

/-- `ContextAwareSpellChecker._get_context_window`
(src/spell_checker.py lines 231-240): `words.index(target_word)` is the
first index whose text equals the target (Python `list.index`), the
slice is `words[max(0, idx - ws) : min(len(words), idx + ws + 1)]`
joined with single spaces, and a `ValueError` (target not present)
yields the empty string. -/
def get_context_window (doc : List Token) (target : String) (ws : Nat) :
    String :=
  let words := doc.map Token.text
  match words.findIdx? (fun w => w == target) with
  | some idx =>
      let start := idx - ws
      let stop := min words.length (idx + ws + 1)
      String.intercalate " " ((words.drop start).take (stop - start))
  | none => ""

/-- The position expression of `_check_homophones`
(src/spell_checker.py line 223):
`next(token.idx for token in doc if token.text == word)` --- the offset
of the first token in the document whose text equals the word, `none`
when the generator is exhausted (Python raises `StopIteration`). -/
def homophone_position (doc : List Token) (word : String) : Option Nat :=
  (doc.find? (fun t => t.text == word)).map Token.idx

/-- `ContextAwareSpellChecker._check_homophones`
(src/spell_checker.py lines 210-229), with the call to the
`_analyze_homophone_context` method abstracted as a parameter.
The loop scans homophone groups in order; a group containing the
lowered word has its context analyzed, and a resolved word that
differs case-insensitively from the original is returned as a
homophone error (confidence 0.8); in every other case the loop
continues, and falling off the loop returns `None`. -/
def check_homophones_with
    (analyze : String → String → HomGroup → Option String)
    (groups : List HomGroup) (word : String) (doc : List Token) :
    Except String (Option DetectedError) :=
  match groups with
  | [] => .ok none
  | g :: rest =>
      if pyLower word ∈ g.words then
        let context := get_context_window doc word 3
        match analyze word context g with
        | some cw =>
            if pyLower cw ≠ pyLower word then
              match homophone_position doc word with
              | some p =>
                  .ok (some ⟨word, p, "homophone", [cw], some (8 / 10)⟩)
              | none => .error "StopIteration"
            else
              check_homophones_with analyze rest word doc
        | none => check_homophones_with analyze rest word doc
      else
        check_homophones_with analyze rest word doc

/-- `_check_homophones` with the concrete context analyzer of the
source. -/
def check_homophones (groups : List HomGroup) (word : String)
    (doc : List Token) : Except String (Option DetectedError) :=
  check_homophones_with analyze_homophone_context groups word doc

/-- Fuel-driven scanner behind `listReplace`. With fuel at least the
length of the list it scans left to right; whenever the (nonempty)
pattern is a prefix of the remaining input it emits the replacement and
skips past the matched pattern, otherwise it keeps one character. -/
def replaceFuel (old new : List Char) : Nat → List Char → List Char
  | _, [] => []
  | 0, l => l
  | fuel + 1, c :: rest =>
      if old.isPrefixOf (c :: rest) then
        new ++ replaceFuel old new fuel (rest.drop (old.length - 1))
      else
        c :: replaceFuel old new fuel rest

/-- Python `str.replace(old, new)` on character lists: every
non-overlapping occurrence of `old`, scanning left to right, is
replaced by `new`. An empty pattern inserts `new` at every position
(Python semantics). -/
def listReplace (l old new : List Char) : List Char :=
  if old.isEmpty then
    new ++ (l.map (fun c => c :: new)).flatten
  else
    replaceFuel old new l.length l

/-- Python `str.replace(old, new)` (the two-argument form used at
src/spell_checker.py lines 270 and 279: no count argument, so all
occurrences are replaced). -/
def pyReplace (s old new : String) : String :=
  String.mk (listReplace s.toList old.toList new.toList)

/-- The masked sentence of `_bert_correct_spelling`
(src/spell_checker.py line 302):
`text[:position] + "[MASK]" + text[position + len(word):]`. -/
def masked_text (text word : String) (position : Nat) : String :=
  text.take position ++ "[MASK]" ++ text.drop (position + word.length)

/-- `ContextAwareSpellChecker._bert_correct_spelling`
(src/spell_checker.py lines 298-316). `fm` is the external fill-mask
pipeline returning the ranked `token_str` candidates (top-k order) or
raising; the whole body sits in a `try` block, so a raise yields
`None`. Candidates equal to the flagged word after lowering are
filtered out and the first survivor is returned. -/
def bert_correct_spelling (fm : String → Except String (List String))
    (text word : String) (position : Nat) : Option String :=
  match fm (masked_text text word position) with
  | .error _ => none
  | .ok preds =>
      (preds.filter (fun p => pyLower p != pyLower word)).head?

/-- The external collaborators of `ContextAwareSpellChecker` together
with the seeded homophone groups: spaCy tokenization (`nlp`), the
enchant dictionary (`dict_check` for `check`, `dict_suggest` for
`suggest`), and the fill-mask pipeline (`fill_mask`). -/
structure Env where
  nlp : String → List Token
  dict_check : String → Bool
  dict_suggest : String → List String
  fill_mask : String → Except String (List String)
  groups : List HomGroup

/-- The per-token body of the loop in
`ContextAwareSpellChecker.detect_errors`
(src/spell_checker.py lines 192-206): alphabetic tokens failing the
dictionary check produce a spelling error carrying the dictionary
suggestions, then the homophone check runs on the token text. -/
def detect_errors_aux (env : Env) (doc : List Token) :
    List Token → Except String (List DetectedError)
  | [] => .ok []
  | tok :: rest =>
      if tok.is_alpha then do
        let spell :=
          if env.dict_check (pyLower tok.text) then
            ([] : List DetectedError)
          else
            [⟨tok.text, tok.idx, "spelling",
              env.dict_suggest (pyLower tok.text), none⟩]
        let hom ← check_homophones env.groups tok.text doc
        let tail ← detect_errors_aux env doc rest
        pure (spell ++ hom.toList ++ tail)
      else
        detect_errors_aux env doc rest

/-- `ContextAwareSpellChecker.detect_errors`
(src/spell_checker.py lines 187-208). -/
def detect_errors (env : Env) (text : String) :
    Except String (List DetectedError) :=
  let doc := env.nlp text
  detect_errors_aux env doc doc

/-- One iteration of the correction loop in
`ContextAwareSpellChecker.correct_text`
(src/spell_checker.py lines 265-284): `text` is the original input
(the source masks against the original text, not the working text),
the accumulator carries the working text and `corrections_made`.
Spelling errors go through the BERT corrector; a `None` suggestion is
skipped. Homophone errors apply `suggestions[0]` directly (an empty
suggestion list would raise `IndexError`). Both kinds apply the
suggestion with Python `str.replace`, which rewrites every occurrence
of the original word. Errors of any other type fall through the
`if`/`elif` chain untouched. -/
def apply_error (env : Env) (text : String)
    (acc : String × List CorrectionRecord) (err : DetectedError) :
    Except String (String × List CorrectionRecord) :=
  let ct := acc.1
  let made := acc.2
  if err.type = "spelling" then
    match bert_correct_spelling env.fill_mask text err.word err.position with
    | some s =>
        .ok (pyReplace ct err.word s, made ++ [⟨err.word, s, "spelling"⟩])
    | none => .ok (ct, made)
  else if err.type = "homophone" then
    match err.suggestions with
    | s :: _ =>
        .ok (pyReplace ct err.word s, made ++ [⟨err.word, s, "homophone"⟩])
    | [] => .error "IndexError"
  else
    .ok (ct, made)

/-- The per-correction weights of
`ContextAwareSpellChecker._calculate_confidence`
(src/spell_checker.py lines 324-331), as the list `confidence_scores`
built by its loop: 0.9 for spelling, 0.8 for homophone, 0.7 otherwise.
Floats are modelled as rationals. -/
def confidence_scores (corrections : List CorrectionRecord) : List ℚ :=
  corrections.map (fun c =>
    if c.type = "spelling" then 9 / 10
    else if c.type = "homophone" then 8 / 10
    else 7 / 10)

/-- `ContextAwareSpellChecker._calculate_confidence`
(src/spell_checker.py lines 318-333): 1.0 for an empty correction
list, otherwise the sum of the per-type weights divided by their
count. -/
def calculate_confidence (corrections : List CorrectionRecord) : ℚ :=
  if corrections.isEmpty then 1
  else (confidence_scores corrections).sum /
    ((confidence_scores corrections).length : ℚ)

/-- `ContextAwareSpellChecker.correct_text`
(src/spell_checker.py lines 259-296). -/
def correct_text (env : Env) (text : String) :
    Except String SpellCheckResult := do
  let errors ← detect_errors env text
  let res ← errors.foldlM (apply_error env text) (text, [])
  pure
    { original_text := text
      corrected_text := res.1
      suggestions := errors
      confidence_score := calculate_confidence res.2
      error_type := "mixed"
      corrections_made := res.2 }

/-- The run of non-whitespace characters at the head of the list. -/
def takeRun (l : List Char) : List Char :=
  l.takeWhile (fun c => !c.isWhitespace)

/-- Drop the run of non-whitespace characters at the head of the
list. -/
def dropRun (l : List Char) : List Char :=
  l.dropWhile (fun c => !c.isWhitespace)

/-- Python `str.split()` with no separator (used at
src/spell_checker.py line 338): maximal runs of consecutive
whitespace separate the text, leading and trailing whitespace is
discarded, and no empty fields are produced. The accumulator holds
the reversed characters of the token currently being read. -/
def pySplitWsAux : List Char → List Char → List (List Char)
  | [], acc => if acc.isEmpty then [] else [acc.reverse]
  | c :: rest, acc =>
      if c.isWhitespace then
        if acc.isEmpty then pySplitWsAux rest []
        else acc.reverse :: pySplitWsAux rest []
      else
        pySplitWsAux rest (c :: acc)

/-- Python `text.split()` on the characters of the text. -/
def pySplitWs (l : List Char) : List (List Char) :=
  pySplitWsAux l []

/-- Modelled from the spec: the number of whitespace-delimited tokens
of a character sequence, counted directly as the number of maximal
nonempty runs of non-whitespace characters (each run is counted once,
at the position where it starts). Written from the wording of section
4.5 for comparison with the word count the source computes. -/
def wsTokenCountAux : Bool → List Char → Nat
  | _, [] => 0
  | inTok, c :: rest =>
      if c.isWhitespace then wsTokenCountAux false rest
      else (if inTok then 0 else 1) + wsTokenCountAux true rest

/-- Modelled from the spec: whitespace-delimited token count. -/
def wsTokenCount (l : List Char) : Nat :=
  wsTokenCountAux false l

/-- The textstat collaborator: sentence count and the three
readability indices (external library). -/
structure ReadabilitySvc where
  sentence_count : String → Nat
  flesch_reading_ease : String → ℚ
  flesch_kincaid_grade : String → ℚ
  automated_readability_index : String → ℚ

/-- The record returned by
`ContextAwareSpellChecker.get_text_statistics`. -/
structure TextStatistics where
  word_count : Nat
  character_count : Nat
  sentence_count : Nat
  flesch_reading_ease : ℚ
  flesch_kincaid_grade : ℚ
  readability_score : ℚ
deriving DecidableEq, Repr

/-- `ContextAwareSpellChecker.get_text_statistics`
(src/spell_checker.py lines 335-344): `len(text.split())`,
`len(text)`, and four textstat calls. -/
def get_text_statistics (rd : ReadabilitySvc) (text : String) :
    TextStatistics :=
  { word_count := (pySplitWs text.toList).length
    character_count := text.length
    sentence_count := rd.sentence_count text
    flesch_reading_ease := rd.flesch_reading_ease text
    flesch_kincaid_grade := rd.flesch_kincaid_grade text
    readability_score := rd.automated_readability_index text }

/-- A row of the `misspellings` table
(src/spell_checker.py lines 60-69). The schema constrains only the
autoincrement primary key and the two NOT NULL text columns; it
declares no UNIQUE constraint on `incorrect_word`. -/
structure MisspellingRow where
  id : Nat
  incorrect_word : String
  correct_word : String
  frequency : Nat
  context_examples : String
deriving DecidableEq, Repr

/-- `MockDatabase.init_database` (src/spell_checker.py lines 54-94):
`CREATE TABLE IF NOT EXISTS` touches no rows, so on the misspellings
table it is the identity on row lists. -/
def init_database (db : List MisspellingRow) : List MisspellingRow :=
  db

/-- The next AUTOINCREMENT id: one more than the largest id so far. -/
def nextRowId (db : List MisspellingRow) : Nat :=
  (db.map MisspellingRow.id).foldl max 0 + 1

/-- One `INSERT OR IGNORE INTO misspellings` statement
(src/spell_checker.py lines 110-113) under the documented SQLite
semantics: `OR IGNORE` skips a row only when a uniqueness constraint
is violated, and the schema of lines 60-69 has no uniqueness
constraint apart from the always-fresh autoincrement primary key, so
the insert always appends. -/
def insert_or_ignore (db : List MisspellingRow)
    (r : String × String × Nat × String) : List MisspellingRow :=
  db ++ [⟨nextRowId db, r.1, r.2.1, r.2.2.1, r.2.2.2⟩]

/-- The five sample misspellings of `MockDatabase.populate_sample_data`
(src/spell_checker.py lines 102-108). -/
def sample_misspellings : List (String × String × Nat × String) :=
  [("recieve", "receive", 5, "I will recieve the package tomorrow."),
   ("seperate", "separate", 3, "Please seperate the items."),
   ("definately", "definitely", 4, "I will definately be there."),
   ("occured", "occurred", 2, "The event occured yesterday."),
   ("accomodate", "accommodate", 3, "We can accomodate your request.")]

/-- The misspellings part of `MockDatabase.populate_sample_data`
(src/spell_checker.py lines 96-129): `executemany` of the
`INSERT OR IGNORE` statement over the five sample rows. -/
def populate_sample_data (db : List MisspellingRow) :
    List MisspellingRow :=
  sample_misspellings.foldl insert_or_ignore db

/-- `MockDatabase.get_misspellings` (src/spell_checker.py lines
131-138): every `(incorrect_word, correct_word, frequency)` triple of
the table. -/
def get_misspellings (db : List MisspellingRow) :
    List (String × String × Nat) :=
  db.map (fun r => (r.incorrect_word, r.correct_word, r.frequency))

theorem except_bind_ok {α β : Type} (a : α) (f : α → Except String β) :
    (Except.ok a >>= f) = f a :=
  rfl

/-- Each keyword rule of `_analyze_homophone_context` returns the
lowered surface form of the word it was asked about, so any returned
word agrees with the input word case-insensitively. -/
theorem analyze_homophone_same (w c : String) (g : HomGroup) (r : String)
    (h : analyze_homophone_context w c g = some r) :
    pyLower r = pyLower w := by
  simp only [analyze_homophone_context] at h
  split_ifs at h <;>
    first
      | exact Option.noConfusion h
      | (injection h with h
         subst h
         simp only [*]
         decide)

/-- The concrete homophone check never emits an error: any resolved
word matches the original case-insensitively, so the inequality test
of line 220 always fails and the loop falls through to `None`. -/
theorem check_homophones_none (groups : List HomGroup) (word : String)
    (doc : List Token) :
    check_homophones groups word doc = .ok none := by
  induction groups with
  | nil => rfl
  | cons g rest ih =>
      unfold check_homophones check_homophones_with
      by_cases hmem : pyLower word ∈ g.words
      · simp only [hmem, if_true]
        cases hA : analyze_homophone_context word
            (get_context_window doc word 3) g with
        | none => exact ih
        | some cw =>
            have hsame := analyze_homophone_same _ _ _ _ hA
            simp only [hsame, ne_eq, not_true_eq_false, if_false, ite_false]
            exact ih
      · simp only [hmem, if_false, ite_false]
        exact ih

/-- `detect_errors_aux` always succeeds and only ever emits errors of
type spelling (by `check_homophones_none` the homophone branch
contributes nothing). -/
theorem detect_errors_aux_spelling (env : Env) (doc : List Token)
    (toks : List Token) :
    ∃ errs, detect_errors_aux env doc toks = .ok errs ∧
      ∀ e ∈ errs, e.type = "spelling" := by
  induction toks with
  | nil => exact ⟨[], rfl, by simp⟩
  | cons tok rest ih =>
      obtain ⟨errs, he, hty⟩ := ih
      by_cases ha : tok.is_alpha
      · refine ⟨(if env.dict_check (pyLower tok.text) then []
            else [⟨tok.text, tok.idx, "spelling",
              env.dict_suggest (pyLower tok.text), none⟩]) ++ errs, ?_, ?_⟩
        · unfold detect_errors_aux
          rw [if_pos ha, check_homophones_none, except_bind_ok, he,
            except_bind_ok]
          simp only [Option.toList, List.append_nil]
          rfl
        · intro e he'
          rcases List.mem_append.mp he' with h | h
          · split at h
            · simp at h
            · simp only [List.mem_singleton] at h
              subst h
              rfl
          · exact hty e h
      · refine ⟨errs, ?_, hty⟩
        unfold detect_errors_aux
        rw [if_neg ha]
        exact he

/-- `detect_errors` always succeeds and every detected error is a
spelling error. -/
theorem detect_errors_spelling (env : Env) (text : String) :
    ∃ errs, detect_errors env text = .ok errs ∧
      ∀ e ∈ errs, e.type = "spelling" :=
  detect_errors_aux_spelling env (env.nlp text) (env.nlp text)

/-- `apply_error` on a spelling error always succeeds, and appends at
most one correction record, itself of type spelling. -/
theorem apply_error_spelling (env : Env) (text : String)
    (acc : String × List CorrectionRecord) (err : DetectedError)
    (h : err.type = "spelling") :
    ∃ res, apply_error env text acc err = .ok res ∧
      ∀ m ∈ res.2, m ∈ acc.2 ∨ m.type = "spelling" := by
  unfold apply_error
  rw [if_pos h]
  cases bert_correct_spelling env.fill_mask text err.word err.position with
  | none => exact ⟨acc, rfl, fun m hm => Or.inl hm⟩
  | some s =>
      refine ⟨_, rfl, fun m hm => ?_⟩
      rcases List.mem_append.mp hm with hmem | hmem
      · exact Or.inl hmem
      · simp only [List.mem_singleton] at hmem
        subst hmem
        exact Or.inr rfl

/-- Folding `apply_error` over spelling errors always succeeds and
keeps every correction record of type spelling. -/
theorem foldl_apply_error_spelling (env : Env) (text : String) :
    ∀ (errs : List DetectedError), (∀ e ∈ errs, e.type = "spelling") →
    ∀ (acc : String × List CorrectionRecord),
      (∀ m ∈ acc.2, m.type = "spelling") →
      ∃ res, errs.foldlM (apply_error env text) acc = .ok res ∧
        ∀ m ∈ res.2, m.type = "spelling" := by
  intro errs
  induction errs with
  | nil => exact fun _ acc hacc => ⟨acc, rfl, hacc⟩
  | cons err rest ih =>
      intro hty acc hacc
      obtain ⟨mid, hmid, hmidty⟩ :=
        apply_error_spelling env text acc err (hty err (by simp))
      obtain ⟨res, hres, hresty⟩ :=
        ih (fun e he => hty e (List.mem_cons_of_mem _ he)) mid
          (fun m hm => (hmidty m hm).elim (fun h => hacc m h) id)
      refine ⟨res, ?_, hresty⟩
      rw [List.foldlM_cons, hmid, except_bind_ok]
      exact hres

/-- The whole correction pipeline always succeeds, and every recorded
correction is of type spelling. -/
theorem correct_text_spelling (env : Env) (text : String) :
    ∃ r, correct_text env text = .ok r ∧
      ∀ m ∈ r.corrections_made, m.type = "spelling" := by
  obtain ⟨errs, he, hty⟩ := detect_errors_spelling env text
  obtain ⟨res, hres, hresty⟩ :=
    foldl_apply_error_spelling env text errs hty (text, []) (by simp)
  refine ⟨⟨text, res.1, errs, calculate_confidence res.2, "mixed", res.2⟩,
    ?_, hresty⟩
  unfold correct_text
  rw [he, except_bind_ok, hres, except_bind_ok]
  rfl

/-- The scanner is fuel-indifferent once the fuel covers the input
length. -/
theorem replaceFuel_congr (old new : List Char) :
    ∀ f₁ f₂ l, l.length ≤ f₁ → l.length ≤ f₂ →
      replaceFuel old new f₁ l = replaceFuel old new f₂ l := by
  intro f₁
  induction f₁ with
  | zero =>
      intro f₂ l h1 _
      have hl : l = [] := List.length_eq_zero.mp (Nat.le_zero.mp h1)
      subst hl
      cases f₂ <;> rfl
  | succ f ih =>
      intro f₂ l h1 h2
      cases l with
      | nil => cases f₂ <;> rfl
      | cons c rest =>
          cases f₂ with
          | zero => exact absurd h2 (by simp)
          | succ f₂' =>
              simp only [replaceFuel]
              simp only [List.length_cons] at h1 h2
              have hr : rest.length ≤ f := by omega
              have hr₂ : rest.length ≤ f₂' := by omega
              by_cases hp : old.isPrefixOf (c :: rest)
              · rw [if_pos hp, if_pos hp]
                congr 1
                refine ih f₂' _ ?_ ?_ <;>
                  · rw [List.length_drop]
                    omega
              · rw [if_neg hp, if_neg hp]
                congr 1
                exact ih f₂' rest hr hr₂

/-- Unfolding `listReplace` when the pattern matches at the head:
the replacement is emitted and scanning resumes after the pattern. -/
theorem listReplace_head_match (w s b : List Char)
    (hwE : w.isEmpty = false) :
    listReplace (w ++ b) w s = s ++ listReplace b w s := by
  cases w with
  | nil => simp at hwE
  | cons wh wt =>
      have hp : (wh :: wt).isPrefixOf (wh :: (wt ++ b)) = true :=
        List.isPrefixOf_iff_prefix.mpr (List.prefix_append _ _)
      unfold listReplace
      rw [hwE]
      simp only [Bool.false_eq_true, if_false, ite_false, List.cons_append,
        List.length_cons, replaceFuel, List.append_eq]
      rw [if_pos hp]
      congr 1
      rw [show wt.length + 1 - 1 = wt.length from rfl, List.drop_left]
      exact replaceFuel_congr _ _ _ _ _
        (by rw [List.length_append]; omega) (le_refl _)

/-- Unfolding `listReplace` when the pattern does not match at the
head: the head character is kept and scanning moves on. -/
theorem listReplace_cons_of_not_prefix (w s : List Char)
    (hwE : w.isEmpty = false) (c : Char) (l : List Char)
    (h : w.isPrefixOf (c :: l) = false) :
    listReplace (c :: l) w s = c :: listReplace l w s := by
  unfold listReplace
  rw [hwE]
  simp only [Bool.false_eq_true, if_false, ite_false, List.length_cons,
    replaceFuel, List.append_eq]
  rw [if_neg (by rw [h]; exact Bool.false_ne_true)]

/-- Replacement distributes over an occurrence: when no occurrence of
the (nonempty) pattern starts inside the front part `a`, replacing in
`a ++ w ++ b` keeps `a`, rewrites that occurrence of `w`, and goes on
replacing in the tail `b`. -/
theorem listReplace_append (w s : List Char) (hw : w ≠ []) :
    ∀ a b, (∀ k, k < a.length → w.isPrefixOf ((a ++ w ++ b).drop k) = false) →
      listReplace (a ++ w ++ b) w s = a ++ s ++ listReplace b w s := by
  have hwE : w.isEmpty = false := by
    cases w with
    | nil => exact absurd rfl hw
    | cons c t => rfl
  intro a
  induction a with
  | nil =>
      intro b _
      simp only [List.nil_append]
      exact listReplace_head_match w s b hwE
  | cons ch a' ih =>
      intro b hocc
      have h0 : w.isPrefixOf (ch :: (a' ++ w ++ b)) = false := by
        have := hocc 0 (by simp)
        simpa using this
      have hstep : ∀ k, k < a'.length →
          w.isPrefixOf ((a' ++ w ++ b).drop k) = false := by
        intro k hk
        have := hocc (k + 1) (by simpa using Nat.succ_lt_succ hk)
        simpa using this
      calc listReplace ((ch :: a') ++ w ++ b) w s
          = listReplace (ch :: (a' ++ w ++ b)) w s := by
            simp only [List.cons_append]
        _ = ch :: listReplace (a' ++ w ++ b) w s :=
            listReplace_cons_of_not_prefix w s hwE ch _ h0
        _ = ch :: (a' ++ s ++ listReplace b w s) := by rw [ih b hstep]
        _ = (ch :: a') ++ s ++ listReplace b w s := by
            simp only [List.cons_append, List.append_assoc]

/-- Decomposition of a successful filtered head: the list splits at
the first element satisfying the predicate. -/
theorem filter_head_decomp {α : Type} (p : α → Bool) :
    ∀ (l : List α) (s : α), (l.filter p).head? = some s →
      ∃ pre suf, l = pre ++ s :: suf ∧ (∀ x ∈ pre, p x = false) ∧
        p s = true := by
  intro l
  induction l with
  | nil => intro s h; simp at h
  | cons c rest ih =>
      intro s h
      by_cases hc : p c
      · rw [List.filter_cons_of_pos hc] at h
        simp only [List.head?_cons] at h
        injection h with h
        subst h
        exact ⟨[], rest, rfl, by simp, hc⟩
      · rw [List.filter_cons_of_neg hc] at h
        obtain ⟨pre, suf, hl, hpre, hs⟩ := ih s h
        refine ⟨c :: pre, suf, by rw [hl]; rfl, ?_, hs⟩
        intro x hx
        rcases List.mem_cons.mp hx with hx | hx
        · subst hx
          exact Bool.eq_false_iff.mpr hc
        · exact hpre x hx

/-- `find?` returns the element at the first index satisfying the
predicate. -/
theorem find_first {α : Type} (p : α → Bool) :
    ∀ (l : List α) (i : Nat) (a : α), l.get? i = some a → p a = true →
      (∀ j b, j < i → l.get? j = some b → p b = false) →
      l.find? p = some a := by
  intro l
  induction l with
  | nil => intro i a h; simp at h
  | cons c rest ih =>
      intro i a hget hp hbefore
      cases i with
      | zero =>
          simp only [List.get?] at hget
          injection hget with hget
          subst hget
          simp [List.find?, hp]
      | succ i' =>
          have hc : p c = false := hbefore 0 c (Nat.succ_pos i') rfl
          simp only [List.find?, hc]
          exact ih i' a hget hp
            (fun j b hj hg => hbefore (j + 1) b (Nat.succ_lt_succ hj) hg)

/-- A successful homophone emission records the word it was called on
and the position computed by `homophone_position`. -/
theorem check_homophones_with_position
    (analyze : String → String → HomGroup → Option String) :
    ∀ (groups : List HomGroup) (word : String) (doc : List Token)
      (err : DetectedError),
      check_homophones_with analyze groups word doc = .ok (some err) →
      err.word = word ∧ homophone_position doc word = some err.position := by
  intro groups
  induction groups with
  | nil =>
      intro word doc err h
      simp only [check_homophones_with] at h
      injection h with h
      exact Option.noConfusion h
  | cons g rest ih =>
      intro word doc err h
      simp only [check_homophones_with] at h
      by_cases hmem : pyLower word ∈ g.words
      · rw [if_pos hmem] at h
        cases hA : analyze word (get_context_window doc word 3) g with
        | none =>
            simp only [hA] at h
            exact ih word doc err h
        | some cw =>
            simp only [hA] at h
            by_cases hne : pyLower cw ≠ pyLower word
            · rw [if_pos hne] at h
              cases hpos : homophone_position doc word with
              | none =>
                  simp only [hpos] at h
                  exact Except.noConfusion h
              | some p =>
                  simp only [hpos] at h
                  injection h with h
                  injection h with h
                  subst h
                  exact ⟨rfl, rfl⟩
            · rw [if_neg hne] at h
              exact ih word doc err h
      · rw [if_neg hmem] at h
        exact ih word doc err h

/-- The length of the Python split is the number of maximal
non-whitespace runs, shifted by the pending token in the
accumulator. -/
theorem pySplitWsAux_length :
    ∀ (l acc : List Char),
      (pySplitWsAux l acc).length =
        (if acc.isEmpty then 0 else 1) + wsTokenCountAux (!acc.isEmpty) l := by
  intro l
  induction l with
  | nil =>
      intro acc
      by_cases h : acc.isEmpty <;> simp [pySplitWsAux, wsTokenCountAux, h]
  | cons c rest ih =>
      intro acc
      by_cases hw : c.isWhitespace
      · by_cases ha : acc.isEmpty
        · simpa [pySplitWsAux, wsTokenCountAux, hw, ha] using ih []
        · have := ih []
          simp only [List.isEmpty_nil, if_true, Bool.not_true] at this
          simp [pySplitWsAux, wsTokenCountAux, hw, ha, this]
          omega
      · have := ih (c :: acc)
        simp only [List.isEmpty_cons, Bool.not_false, if_false, ite_false] at this
        by_cases ha : acc.isEmpty <;>
          simp [pySplitWsAux, wsTokenCountAux, hw, ha, this]

/-- The word count of the source (length of the Python split) agrees
with the direct run count of the specification. -/
theorem pySplitWs_length (l : List Char) :
    (pySplitWs l).length = wsTokenCount l := by
  simpa [pySplitWs, wsTokenCount] using pySplitWsAux_length l []

/-- Every per-correction weight lies between 0.7 and 0.9, so the sum
of the weights is squeezed between the corresponding multiples of the
length. -/
theorem confidence_scores_sum_bounds (l : List CorrectionRecord) :
    (7 / 10 : ℚ) * l.length ≤ (confidence_scores l).sum ∧
      (confidence_scores l).sum ≤ (9 / 10 : ℚ) * l.length := by
  induction l with
  | nil => simp [confidence_scores]
  | cons c rest ih =>
      obtain ⟨ih1, ih2⟩ := ih
      simp only [confidence_scores, List.map_cons, List.sum_cons,
        List.length_cons] at ih1 ih2 ⊢
      push_cast
      constructor <;> split_ifs <;> nlinarith [ih1, ih2]

/-! Concrete fixtures used by witnesses and counterexamples. -/

/-- A three-token document in which the word at offset 0 reappears at
offset 8. -/
def cxTokens : List Token :=
  [⟨"teh", 0, true⟩, ⟨"cat", 4, true⟩, ⟨"teh", 8, true⟩]

/-- A deterministic environment for the text built from `cxTokens`:
the dictionary accepts only the middle word and the fill-mask model
always answers with the single candidate. -/
def cx1Env : Env :=
  { nlp := fun _ => cxTokens
    dict_check := fun w => w == "cat"
    dict_suggest := fun _ => []
    fill_mask := fun _ => .ok ["the"]
    groups := [] }

/-- An environment whose dictionary accepts every word, so nothing is
ever flagged. -/
def quietEnv : Env :=
  { nlp := fun _ => []
    dict_check := fun _ => true
    dict_suggest := fun _ => []
    fill_mask := fun _ => .ok []
    groups := [] }

/-- Modelled from the spec (section 3 and 4.4): the per-kind
confidence weight table, spelling 0.9, homophone 0.8, other 0.7. -/
def specConfidenceWeight (kind : String) : ℚ :=
  if kind = "spelling" then 9 / 10
  else if kind = "homophone" then 8 / 10
  else 7 / 10

/-- Claim C1, counterexample: the aggregator applies one accepted
correction with Python `str.replace`, which rewrites every occurrence
of the original word, not only the first remaining one. On the working
text with the flagged word at offsets 0 and 8, a single correction of
the first error already rewrites the occurrence at offset 8 as well:
the result is the full rewrite, not the first-occurrence-only rewrite
the claim requires. -/
theorem claim_c1_counterexample :
    apply_error cx1Env "teh cat teh" ("teh cat teh", [])
        ⟨"teh", 0, "spelling", [], none⟩ =
      .ok ("the cat the", [⟨"teh", "the", "spelling"⟩]) ∧
    "the cat the" ≠ "the cat teh" :=
  ⟨rfl, by decide⟩

/-- Claim C1, amended: one accepted spelling correction rewrites the
working text with Python `str.replace`, replacing every remaining
non-overlapping occurrence of the original word, scanning left to
right: past the leftmost occurrence, replacement continues through the
rest of the text instead of stopping. -/
theorem claim_c1 :
    (∀ (env : Env) (text ct : String) (made : List CorrectionRecord)
       (err : DetectedError) (s : String), err.type = "spelling" →
       bert_correct_spelling env.fill_mask text err.word err.position =
         some s →
       apply_error env text (ct, made) err =
         .ok (pyReplace ct err.word s, made ++ [⟨err.word, s, "spelling"⟩]))
    ∧ (∀ (a b w s : List Char), w ≠ [] →
        (∀ k, k < a.length → w.isPrefixOf ((a ++ w ++ b).drop k) = false) →
        listReplace (a ++ w ++ b) w s = a ++ s ++ listReplace b w s) := by
  constructor
  · intro env text ct made err s hty hbert
    unfold apply_error
    rw [if_pos hty]
    simp only [hbert]
  · intro a b w s hw hocc
    exact listReplace_append w s hw a b hocc

/-- Claim C1, witness for the amended statement at a concrete input:
replacing in "x teh teh" rewrites the leftmost occurrence and keeps
replacing in the tail. -/
theorem claim_c1_witness :
    listReplace ("x ".toList ++ "teh".toList ++ " teh".toList)
        "teh".toList "the".toList =
      "x ".toList ++ "the".toList ++
        listReplace " teh".toList "teh".toList "the".toList :=
  claim_c1.2 "x ".toList " teh".toList "teh".toList "the".toList
    (by decide) (by decide)

/-- Claim C2: the confidence score is 1.0 for an empty correction
list, and otherwise the arithmetic mean of the weight table
(spelling 0.9, homophone 0.8, other 0.7) over the corrections made. -/
theorem claim_c2 (l : List CorrectionRecord) :
    (l = [] → calculate_confidence l = 1) ∧
    (l ≠ [] →
      calculate_confidence l =
        (l.map (fun c => specConfidenceWeight c.type)).sum /
          (l.length : ℚ)) := by
  constructor
  · intro h
    subst h
    rfl
  · intro h
    unfold calculate_confidence
    rw [if_neg (by simpa using h)]
    have hmap : confidence_scores l =
        l.map (fun c => specConfidenceWeight c.type) := rfl
    rw [hmap, List.length_map]

/-- Claim C2, witness: the mean formula at a concrete two-element
correction list. -/
theorem claim_c2_witness :
    calculate_confidence
        [⟨"recieve", "receive", "spelling"⟩,
         ⟨"their", "there", "homophone"⟩] =
      (([⟨"recieve", "receive", "spelling"⟩,
         ⟨"their", "there", "homophone"⟩] : List CorrectionRecord).map
          (fun c => specConfidenceWeight c.type)).sum /
        (([⟨"recieve", "receive", "spelling"⟩,
           ⟨"their", "there", "homophone"⟩] :
            List CorrectionRecord).length : ℚ) :=
  (claim_c2 _).2 (by decide)

/-- Claim C3: the external corrector filters out every candidate that
matches the flagged word case-insensitively and accepts the
highest-ranked survivor; a model error or an empty survivor list
yields no correction, and the correction pipeline as a whole always
returns a result, never a pipeline-wide failure. -/
theorem claim_c3 :
    (∀ (fm : String → Except String (List String)) (text word : String)
       (pos : Nat) (e : String), fm (masked_text text word pos) = .error e →
       bert_correct_spelling fm text word pos = none)
    ∧ (∀ (fm : String → Except String (List String)) (text word : String)
        (pos : Nat) (preds : List String),
        fm (masked_text text word pos) = .ok preds →
        ((∀ p ∈ preds, pyLower p = pyLower word) →
          bert_correct_spelling fm text word pos = none)
        ∧ (∀ s, bert_correct_spelling fm text word pos = some s →
            ∃ pre suf, preds = pre ++ s :: suf ∧
              (∀ p ∈ pre, pyLower p = pyLower word) ∧
              pyLower s ≠ pyLower word))
    ∧ (∀ env text, ∃ r, correct_text env text = .ok r) := by
  refine ⟨?_, ?_, ?_⟩
  · intro fm text word pos e h
    simp only [bert_correct_spelling, h]
  · intro fm text word pos preds h
    constructor
    · intro hall
      simp only [bert_correct_spelling, h]
      have hf : preds.filter (fun p => pyLower p != pyLower word) = [] :=
        List.filter_eq_nil.mpr (fun a ha => by
          simp only [bne_iff_ne, ne_eq, not_not]
          exact hall a ha)
      rw [hf]
      rfl
    · intro s hs
      simp only [bert_correct_spelling, h] at hs
      obtain ⟨pre, suf, hsplit, hpre, hps⟩ :=
        filter_head_decomp (fun p => pyLower p != pyLower word) preds s hs
      refine ⟨pre, suf, hsplit, ?_, ?_⟩
      · intro p hp
        have := hpre p hp
        simpa using this
      · simpa using hps
  · intro env text
    obtain ⟨r, hr, -⟩ := correct_text_spelling env text
    exact ⟨r, hr⟩

/-- Claim C3, witness: a failing model call produces no correction. -/
theorem claim_c3_witness :
    bert_correct_spelling (fun _ => .error "model unavailable")
        "teh cat" "teh" 0 = none :=
  claim_c3.1 (fun _ => .error "model unavailable") "teh cat" "teh" 0
    "model unavailable" rfl

/-- Claim C4: the seed operation is not idempotent. The misspellings
table of `init_database` declares no UNIQUE constraint on
`incorrect_word`, so the `INSERT OR IGNORE` of
`populate_sample_data` never has a uniqueness violation to ignore:
every run of the seed appends the five sample rows again, and the
length of `get_misspellings` grows by five per seeding instead of
staying stable. -/
theorem claim_c4 :
    (∀ db, (get_misspellings (populate_sample_data db)).length =
      (get_misspellings db).length + 5) ∧
    (get_misspellings (populate_sample_data (init_database []))).length
      = 5 ∧
    (get_misspellings
        (populate_sample_data
          (populate_sample_data (init_database [])))).length = 10 := by
  refine ⟨?_, rfl, rfl⟩
  intro db
  simp [populate_sample_data, sample_misspellings, insert_or_ignore,
    get_misspellings]

/-- Claim C5: when detection flags nothing, the corrected text is the
input text, no corrections are recorded, and the confidence score is
1.0. -/
theorem claim_c5 (env : Env) (text : String)
    (h : detect_errors env text = .ok []) :
    correct_text env text = .ok ⟨text, text, [], 1, "mixed", []⟩ := by
  unfold correct_text
  rw [h, except_bind_ok]
  rfl

/-- Claim C5, witness: a concrete check with nothing flagged returns
the input unchanged with confidence 1. -/
theorem claim_c5_witness :
    correct_text quietEnv "Hello world" =
      .ok ⟨"Hello world", "Hello world", [], 1, "mixed", []⟩ :=
  claim_c5 quietEnv "Hello world" rfl

/-- Claim C6: the context window around a located target spans three
tokens before and three after the first token equal to the target,
clipped at the document boundaries (the explicit `min` of the source
is redundant because slicing clips); when the target is not among the
token texts the window is the empty string and the homophone check
produces no correction. -/
theorem claim_c6 (doc : List Token) (target : String) :
    (∀ idx,
      (doc.map Token.text).findIdx? (fun w => w == target) = some idx →
      get_context_window doc target 3 =
        String.intercalate " "
          (((doc.map Token.text).drop (idx - 3)).take
            (idx + 3 + 1 - (idx - 3))))
    ∧ ((doc.map Token.text).findIdx? (fun w => w == target) = none →
      get_context_window doc target 3 = "" ∧
      ∀ groups, check_homophones groups target doc = .ok none) := by
  constructor
  · intro idx hidx
    simp only [get_context_window, hidx]
    congr 1
    rcases Nat.le_total (idx + 3 + 1) (doc.map Token.text).length with
      hle | hle
    · rw [min_eq_right hle]
    · rw [min_eq_left hle]
      rw [List.take_of_length_le (by rw [List.length_drop]),
        List.take_of_length_le (by rw [List.length_drop]; omega)]
  · intro hnone
    refine ⟨?_, fun groups => check_homophones_none groups target doc⟩
    simp only [get_context_window, hnone]

/-- Claim C6, witness: a target absent from the document yields the
empty window and no homophone correction. -/
theorem claim_c6_witness :
    get_context_window [⟨"word", 0, true⟩] "dog" 3 = "" ∧
    check_homophones [] "dog" [⟨"word", 0, true⟩] = .ok none :=
  ⟨((claim_c6 [⟨"word", 0, true⟩] "dog").2 rfl).1,
   ((claim_c6 [⟨"word", 0, true⟩] "dog").2 rfl).2 []⟩

/-- Claim C7: the reported word count is the number of
whitespace-delimited tokens (maximal non-whitespace runs) and the
character count is the length of the text; on the sample sentence the
word count is 5. -/
theorem claim_c7 :
    (∀ (rd : ReadabilitySvc) (text : String),
      (get_text_statistics rd text).word_count = wsTokenCount text.toList ∧
      (get_text_statistics rd text).character_count = text.length)
    ∧ ∀ rd : ReadabilitySvc,
        (get_text_statistics rd "This is a test sentence.").word_count
          = 5 :=
  ⟨fun _ text => ⟨pySplitWs_length text.toList, rfl⟩, fun _ => rfl⟩

/-- Claim C8: the implemented homophone context rules only return the
surface form of the word itself (up to case), so the homophone check
always answers `None`, detection only ever emits spelling errors, and
the pipeline never records a homophone correction. -/
theorem claim_c8 :
    (∀ w c g r, analyze_homophone_context w c g = some r →
      pyLower r = pyLower w)
    ∧ (∀ groups word doc, check_homophones groups word doc = .ok none)
    ∧ (∀ env text errs, detect_errors env text = .ok errs →
        ∀ e ∈ errs, e.type = "spelling")
    ∧ (∀ env text r, correct_text env text = .ok r →
        ∀ m ∈ r.corrections_made, m.type = "spelling") := by
  refine ⟨analyze_homophone_same, check_homophones_none, ?_, ?_⟩
  · intro env text errs h
    obtain ⟨errs', h', hty⟩ := detect_errors_spelling env text
    rw [h] at h'
    injection h' with h'
    subst h'
    exact hty
  · intro env text r h
    obtain ⟨r', h', hty⟩ := correct_text_spelling env text
    rw [h] at h'
    injection h' with h'
    subst h'
    exact hty

/-- Claim C8, witness: the rule fires on a concrete context yet
returns the same word up to case, and the concrete check emits
nothing. -/
theorem claim_c8_witness :
    pyLower "there" = pyLower "There" ∧
    check_homophones [⟨"g", ["there"], "", ""⟩] "there"
        [⟨"there", 0, true⟩] = .ok none :=
  ⟨claim_c8.1 "There" "there is a book" ⟨"g", [], "", ""⟩ "there" rfl,
   claim_c8.2.1 [⟨"g", ["there"], "", ""⟩] "there" [⟨"there", 0, true⟩]⟩

/-- Claim C9: a homophone error (for any context analyzer) records as
its position the offset of the first token whose text equals the
flagged word, regardless of which occurrence was being examined. -/
theorem claim_c9 (analyze : String → String → HomGroup → Option String)
    (groups : List HomGroup) (word : String) (doc : List Token)
    (err : DetectedError) (i : Nat) (t : Token)
    (hok : check_homophones_with analyze groups word doc = .ok (some err))
    (hget : doc.get? i = some t) (htext : t.text = word)
    (hfirst : ∀ j u, j < i → doc.get? j = some u → u.text ≠ word) :
    err.position = t.idx := by
  obtain ⟨-, hpos⟩ :=
    check_homophones_with_position analyze groups word doc err hok
  have hfind : doc.find? (fun u => u.text == word) = some t :=
    find_first _ doc i t hget (by simp [htext])
      (fun j u hj hg => by simpa using hfirst j u hj hg)
  unfold homophone_position at hpos
  rw [hfind] at hpos
  simp only [Option.map_some'] at hpos
  injection hpos with hpos
  exact hpos.symm

/-- Claim C9, witness: with an analyzer that resolves to a different
word, the emitted error for a document holding the word at offsets 0
and 8 records offset 0, the first occurrence. -/
theorem claim_c9_witness :
    (⟨"teh", 0, "homophone", ["xyz"], some (8 / 10)⟩ :
      DetectedError).position = (⟨"teh", 0, true⟩ : Token).idx :=
  claim_c9 (fun _ _ _ => some "xyz") [⟨"g", ["teh"], "", ""⟩] "teh"
    cxTokens ⟨"teh", 0, "homophone", ["xyz"], some (8 / 10)⟩ 0
    ⟨"teh", 0, true⟩ rfl rfl rfl
    (fun j _ hj _ => absurd hj (Nat.not_lt_zero j))

/-- Claim C10: the confidence score always lies in the closed unit
interval: it is exactly 1 on the empty correction list and otherwise a
mean of weights each between 0.7 and 0.9, hence itself between 0.7
and 0.9. -/
theorem claim_c10 (l : List CorrectionRecord) :
    0 ≤ calculate_confidence l ∧ calculate_confidence l ≤ 1 ∧
    (l = [] → calculate_confidence l = 1) ∧
    (l ≠ [] → 7 / 10 ≤ calculate_confidence l ∧
      calculate_confidence l ≤ 9 / 10) := by
  by_cases h : l = []
  · subst h
    exact ⟨by norm_num [calculate_confidence],
      by norm_num [calculate_confidence], fun _ => rfl,
      fun hne => absurd rfl hne⟩
  · have hlen : 0 < (l.length : ℚ) := by
      have : 0 < l.length := List.length_pos.mpr h
      exact_mod_cast this
    obtain ⟨hlo, hhi⟩ := confidence_scores_sum_bounds l
    have hcc : calculate_confidence l =
        (confidence_scores l).sum / (l.length : ℚ) := by
      unfold calculate_confidence confidence_scores
      rw [if_neg (by simpa using h), List.length_map]
    have h7 : (7 / 10 : ℚ) ≤ calculate_confidence l := by
      rw [hcc, le_div_iff hlen]
      linarith [hlo]
    have h9 : calculate_confidence l ≤ 9 / 10 := by
      rw [hcc, div_le_iff hlen]
      linarith [hhi]
    exact ⟨le_trans (by norm_num) h7, le_trans h9 (by norm_num),
      fun he => absurd he h, fun _ => ⟨h7, h9⟩⟩

/-- Claim C10, witness: the bounds at the empty list and at a concrete
correction list of an unrecognized kind. -/
theorem claim_c10_witness :
    calculate_confidence ([] : List CorrectionRecord) = 1 ∧
    7 / 10 ≤ calculate_confidence [⟨"foo", "bar", "grammar"⟩] :=
  ⟨(claim_c10 []).2.2.1 rfl,
   ((claim_c10 [⟨"foo", "bar", "grammar"⟩]).2.2.2 (by decide)).1⟩
